import Mathlib

/-!
# Verified embedding of the ggcat core primitives

This file shallowly embeds three subsystems of the repository and proves the
specification claims about them:

* the canonical Rabin-Karp rolling hash engine
  (`src/src/hashes/base/cn_rkhash_base.rs`);
* the compressed-read codec
  (`src/src/io/concurrent/temp_reads/creads_utils.rs`);
* the colormap resolution stage
  (`src/pipeline/querier/src/pipeline/colormap_reading.rs`).

Machine integers are embedded as `ZMod (2^64)` (resp. explicit `% 2^32`
arithmetic on `Nat` for 32-bit color indices), so every wrapping operation of
the source is ring arithmetic modulo the word size.  Byte sequences are
`List Nat`.  Fallible operations return `Option`/`Except`.
-/

namespace GGCat

/-- 64-bit machine words with wrapping arithmetic, as the ring `ZMod (2^64)`. -/
abbrev U64 : Type := ZMod (2 ^ 64)

/-- `u32::MAX`, the sentinel used by the colormap range encoder. -/
def U32_MAX : Nat := 2 ^ 32 - 1

/-! ## Rolling hash constants

The concrete constants live in the (not vendored) includer of
`cn_rkhash_base.rs`.  Modelled from the spec: `MULTIPLIER` is an odd 64-bit
constant, `MULT_INV` is its multiplicative inverse modulo `2^64`, and
`MULT_A`, `MULT_C`, `MULT_G`, `MULT_T` are four distinct 64-bit constants. -/

/-- Modelled from the spec: an odd 64-bit multiplier constant. -/
def MULTIPLIER : U64 := 1099511628211

/-- Modelled from the spec: the multiplicative inverse of `MULTIPLIER`
modulo `2^64`. -/
def MULT_INV : U64 := 14886173955864302971

/-- Modelled from the spec: the per-base multiplier for `A`. -/
def MULT_A : U64 := 0x3c8bfbb395c60474

/-- Modelled from the spec: the per-base multiplier for `C`. -/
def MULT_C : U64 := 0x3193c18562a02b4c

/-- Modelled from the spec: the per-base multiplier for `G`. -/
def MULT_G : U64 := 0x20323ed082572324

/-- Modelled from the spec: the per-base multiplier for `T`. -/
def MULT_T : U64 := 0x295549f54be24456

/-- `FWD_LOOKUP` of `cn_rkhash_base.rs` as a function on byte values: the
table is `1` everywhere except at the compressed codes `0..4` and the ASCII
letters `A`, `C`, `G`, `T`, `N`. -/
def fwd_l (c : Nat) : U64 :=
  if c = 0 ∨ c = 65 then MULT_A
  else if c = 1 ∨ c = 67 then MULT_C
  else if c = 2 ∨ c = 84 then MULT_T
  else if c = 3 ∨ c = 71 then MULT_G
  else if c = 4 ∨ c = 78 then 0
  else 1

/-- `BKW_LOOKUP` of `cn_rkhash_base.rs` as a function on byte values. -/
def bkw_l (c : Nat) : U64 :=
  if c = 0 ∨ c = 65 then MULT_T
  else if c = 1 ∨ c = 67 then MULT_G
  else if c = 2 ∨ c = 84 then MULT_A
  else if c = 3 ∨ c = 71 then MULT_C
  else if c = 4 ∨ c = 78 then 0
  else 1

/-- The accepted alphabet: compressed codes `{A=0, C=1, T=2, G=3, N=4}` and
the ASCII letters `A`, `C`, `G`, `N`, `T`. -/
def acceptedBase (c : Nat) : Prop :=
  c ∈ ([0, 1, 2, 3, 4, 65, 67, 71, 78, 84] : List Nat)

instance (c : Nat) : Decidable (acceptedBase c) := by
  unfold acceptedBase; infer_instance

/-- DNA complement on byte values (identity outside the accepted alphabet,
matching the `1` sentinel entries shared by both lookup tables). -/
def complement (c : Nat) : Nat :=
  if c = 0 then 2 else if c = 1 then 3 else if c = 2 then 0 else if c = 3 then 1
  else if c = 65 then 84 else if c = 67 then 71 else if c = 71 then 67
  else if c = 84 then 65 else c

/-- Reverse complement of a byte sequence. -/
def revComp (s : List Nat) : List Nat := (s.map complement).reverse

/-- `fastexp` of `cn_rkhash_base.rs`: binary exponentiation with wrapping
multiplication. -/
def fastexpGo (result sqv : U64) (exp : Nat) : U64 :=
  if exp = 0 then result
  else fastexpGo (if exp % 2 = 1 then result * sqv else result) (sqv * sqv) (exp / 2)
termination_by exp
decreasing_by exact Nat.div_lt_self (Nat.pos_of_ne_zero (by assumption)) (by omega)

/-- `fastexp base exp` computes `base ^ exp` with wrapping multiplication. -/
def fastexp (base : U64) (exp : Nat) : U64 := fastexpGo 1 base exp

/-- `get_rmmult` of `cn_rkhash_base.rs`; the process-wide last-`k` cache is a
pure memoization of this value, so the embedding is the recomputation path. -/
def get_rmmult (k : Nat) : U64 := fastexp MULTIPLIER (k - 1)

/-! ## Direct (from-scratch) polynomial hashes

`hashFwd` is the direct polynomial definition of the forward hash,
`fwd(s) = fwd(s[0..k-1])·M + fwd_l(s[k-1])` with wrapping arithmetic;
`hashRev` is the corresponding reverse-strand polynomial, with the
multiplier power growing towards the END of the window (so that it equals
the forward hash of the reverse complement). -/

/-- The from-scratch forward hash of a window. -/
def hashFwd (w : List Nat) : U64 :=
  w.foldl (fun h c => h * MULTIPLIER + fwd_l c) 0

/-- The from-scratch reverse-strand hash of a window:
`Σ_j bkw_l(w[j]) · M^j`. -/
def hashRev (w : List Nat) : U64 :=
  w.foldr (fun c h => h * MULTIPLIER + bkw_l c) 0

/-! ## The rolling iterator -/

/-- `CanonicalRabinKarpHashIterator::new`: the forward hash of the first
`k-1` bases, and the backward hash of the first `k-1` bases iterated in
reverse order and multiplied once more by `M`. -/
def rkhashNew (s : List Nat) (k : Nat) : U64 × U64 :=
  ((s.take (k - 1)).foldl (fun h c => h * MULTIPLIER + fwd_l c) 0,
   ((s.take (k - 1)).reverse.foldl (fun h c => h * MULTIPLIER + bkw_l c) 0) * MULTIPLIER)

/-- `CanonicalRabinKarpHashIterator::roll_hash`: returns the emitted
extendable hash and the post-roll `(fh, rc)` state. -/
def roll_hash (s : List Nat) (k_minus1 : Nat) (rmmult : U64) (st : U64 × U64)
    (index : Nat) : (U64 × U64) × U64 × U64 :=
  let in_base := s.getD index 0
  let out_base := s.getD (index - k_minus1) 0
  let current_fh := st.1 * MULTIPLIER + fwd_l in_base
  let current_bk := st.2 * MULT_INV + bkw_l in_base * rmmult
  ((current_fh, current_bk),
   current_fh - fwd_l out_base * rmmult, current_bk - bkw_l out_base)

/-- The emission loop of `HashFunction::iter`: rolls over the indices
`index, index+1, …` for `fuel` steps, collecting the emitted hashes. -/
def iterAux (s : List Nat) (k_minus1 : Nat) (rmmult : U64) :
    Nat → Nat → U64 × U64 → List (U64 × U64)
  | _, 0, _ => []
  | index, fuel + 1, st =>
    let step := roll_hash s k_minus1 rmmult st index
    step.1 :: iterAux s k_minus1 rmmult (index + 1) fuel step.2

/-- The full hash stream of a sequence: `Construct` followed by a `Roll`
at every index in `k-1 .. |s|-1`, emitting one extendable hash each. -/
def iterHashes (s : List Nat) (k : Nat) : List (U64 × U64) :=
  iterAux s (k - 1) (get_rmmult k) (k - 1) (s.length - (k - 1)) (rkhashNew s k)

/-- The window of length `m` starting at position `i`. -/
def window (s : List Nat) (i m : Nat) : List Nat := (s.drop i).take m

/-! ## Canonical (unextendable) hashes and the manual roll -/

/-- `min` on `u64` values (compared as machine words). -/
def min_u64 (a b : U64) : U64 := if a.val ≤ b.val then a else b

/-- `ExtCanonicalRabinKarpHash::to_unextendable`: `min(fwd, rev)`. -/
def to_unextendable (h : U64 × U64) : U64 := min_u64 h.1 h.2

/-- `CanonicalRabinKarpHashFactory::get_second_bucket`: `panic!("Not supported!")`,
embedded as the error value of a total function. -/
def get_second_bucket (_hash : U64) : Except String Nat :=
  Except.error "Not supported!"

/-- `CanonicalRabinKarpHashFactory::get_minimizer`: `panic!("Not supported!")`,
embedded as the error value of a total function. -/
def get_minimizer (_hash : U64) : Except String Nat :=
  Except.error "Not supported!"

/-- `CanonicalRabinKarpHashFactory::manual_roll_forward`. -/
def manual_roll_forward (hash : U64 × U64) (k : Nat) (out_base in_base : Nat) :
    U64 × U64 :=
  let rmmult := get_rmmult k
  ((hash.1 - fwd_l out_base * rmmult) * MULTIPLIER + fwd_l in_base,
   (hash.2 - bkw_l out_base) * MULT_INV + bkw_l in_base * rmmult)

/-! ## Colormap resolver (`colormap_reading.rs`)

Counter entries are `(query_index, counter, color)` triples; the colormap
decoder is a function from color ids to their (ascending) color-index sets;
the emission of one run is a destination bucket paired with the record
written there.  Division by zero (`queries_count = 0`) and the other panics
of the worker are embedded as `Except.error`. -/

/-- `CounterEntry<ColorIndexType>` paired with its color id:
`(query_index, counter, color)`. -/
abbrev CounterEntry : Type := Nat × Nat × Nat

/-- `QueryColoredCounters`: the queries slice and the range-encoded colors
blob (kept as decoded `(start, end)` pairs). -/
structure QueryColoredCounters where
  queries : List (Nat × Nat)
  colors : List (Nat × Nat)
deriving DecidableEq

/-- Insertion sort by a `Nat` key, modelling the two sorts of the worker.
Modelled from the spec: `fast_smart_radix_sort` and `sort_unstable_by_key`
live outside `src/`; the spec only promises sortedness by the key
(radix-sort §4.3.3, query sort §4.3.4c), with unspecified tie order. -/
def sortByKey {α : Type} (key : α → Nat) (l : List α) : List α :=
  List.insertionSort (fun a b => key a ≤ key b) l

/-- `slice::group_by` (chunking into maximal runs where adjacent elements
satisfy the predicate). -/
def chunkBy {α : Type} (p : α → α → Bool) : List α → List (List α)
  | [] => []
  | [a] => [[a]]
  | a :: b :: l =>
    match chunkBy p (b :: l) with
    | [] => [[a]]
    | g :: gs => if p a b then (a :: g) :: gs else [a] :: g :: gs

/-- The range-encoding loop of `colormap_reading` (lines 100-117): state is
`(range_start, range_end)` with `u32::MAX` as the "no current range"
sentinel; `range_end = color + 1` wraps at 32 bits. -/
def rangeEncodeLoop (colors : List Nat) (range_start range_end : Nat)
    (acc : List (Nat × Nat)) : List (Nat × Nat) :=
  match colors with
  | [] => acc ++ [(range_start, range_end)]
  | color :: rest =>
    if color ≠ range_end then
      rangeEncodeLoop rest color ((color + 1) % 2 ^ 32)
        (if range_start ≠ U32_MAX then acc ++ [(range_start, range_end)] else acc)
    else
      rangeEncodeLoop rest range_start ((color + 1) % 2 ^ 32) acc

/-- The colors blob produced for one color set, as decoded ranges. -/
def rangeEncode (colors : List Nat) : List (Nat × Nat) :=
  rangeEncodeLoop colors U32_MAX U32_MAX []

/-- The maximal-run decomposition continuing an open run `[rs, re)`
(reference form of the loop, used to state its invariant). -/
def rangesGo (rs re : Nat) : List Nat → List (Nat × Nat)
  | [] => [(rs, re)]
  | c :: rest =>
    if c = re then rangesGo rs (c + 1) rest else (rs, re) :: rangesGo c (c + 1) rest

/-- `rounded_queries_count`:
`queries_count.div_ceil(1000) * 1000` in `u64` arithmetic. -/
def rounded_queries_count (queries_count : Nat) : Nat :=
  (queries_count + 999) / 1000 * 1000 % 2 ^ 64

/-- `get_query_bucket` (lines 140-145): `u64` product (wrapping), `u64`
division, clamped to `buckets_count - 1`. -/
def get_query_bucket (buckets_count queries_count q : Nat) : Nat :=
  min (buckets_count - 1) (q * buckets_count % 2 ^ 64 / rounded_queries_count queries_count)

/-- Sequential effectful map over `Except` (the per-item loop bodies of the
worker; the first error aborts). -/
def mapE {α β : Type} (f : α → Except String β) : List α → Except String (List β)
  | [] => Except.ok []
  | a :: l =>
    match f a with
    | Except.error e => Except.error e
    | Except.ok b =>
      match mapE f l with
      | Except.error e => Except.error e
      | Except.ok bs => Except.ok (b :: bs)

/-- The body of the per-color-group loop (lines 95-160): range-encode the
color set, sort the queries, split them into destination-bucket runs, and
emit one record per run.  The `u64` division by `rounded_queries_count = 0`
is the error branch. -/
def processGroup (colormap : Nat → List Nat) (buckets_count queries_count : Nat)
    (group : List CounterEntry) : Except String (List (Nat × QueryColoredCounters)) :=
  match group with
  | [] => Except.ok []
  | e0 :: _ =>
    let encoded := rangeEncode (colormap e0.2.2)
    let queries := sortByKey (fun q => q.1) (group.map (fun e => (e.1, e.2.1)))
    if rounded_queries_count queries_count = 0 then
      Except.error "attempt to divide by zero"
    else
      Except.ok ((chunkBy (fun a b =>
          get_query_bucket buckets_count queries_count a.1
            == get_query_bucket buckets_count queries_count b.1) queries).map
        (fun entries =>
          (get_query_bucket buckets_count queries_count
              (match entries with | [] => 0 | e :: _ => e.1),
           ⟨entries, encoded⟩)))

/-- One worker iteration (lines 54-162): decode the bucket, sort by color,
process every maximal color run. -/
def processBucket (colormap : Nat → List Nat) (buckets_count queries_count : Nat)
    (entries : List CounterEntry) : Except String (List (Nat × QueryColoredCounters)) :=
  match mapE (processGroup colormap buckets_count queries_count)
      (chunkBy (fun a b => a.2.2 == b.2.2) (sortByKey (fun e => e.2.2) entries)) with
  | Except.error e => Except.error e
  | Except.ok t => Except.ok t.flatten

/-- `colormap_reading`: every input bucket is processed (in the source, in
parallel; the emissions are collected here in bucket order) with
`buckets_count = colored_query_buckets.len()`. -/
def colormap_reading (colormap : Nat → List Nat) (queries_count : Nat)
    (colored_query_buckets : List (List CounterEntry)) :
    Except String (List (Nat × QueryColoredCounters)) :=
  match mapE (processBucket colormap colored_query_buckets.length queries_count)
      colored_query_buckets with
  | Except.error e => Except.error e
  | Except.ok t => Except.ok t.flatten

/-- `true` exactly on the `Except.error` (panic) branch. -/
def isErr {ε α : Type} : Except ε α → Bool
  | Except.error _ => true
  | Except.ok _ => false

/-! ## Compressed Read Codec (`creads_utils.rs`)

`write_to`/`read_from` are translated from `src`; the helpers they call
(`encode_varint_flags`/`decode_varint_flags` from `io/varint.rs`, the 2-bit
base packing of `CompressedRead`, and the `SequenceExtraData` codec of the
payload type) are not under `src/` and are modelled from the spec:
`size_and_flags` is an LEB128-style varint whose first byte carries the
flags in its top `FlagsCount` bits, a continuation bit, and the low
`7 - FlagsCount` bits of the value; continuation bytes carry 7 value bits
each below a continuation bit; packed bases are `⌈size/4⌉` bytes of 2-bit
codes, least-significant bits first.  Streams are `List Nat` of byte
values; a decoder returns the decoded value and the remaining stream. -/

/-- Modelled from the spec: the continuation bytes of the varint (7 value
bits per byte, high bit set while more bytes follow).  Structural recursion
on a fuel that bounds the value, so that concrete streams evaluate. -/
def encodeLEBGo : Nat → Nat → List Nat
  | _, 0 => []
  | v, fuel + 1 =>
    if v = 0 then []
    else (v % 128 + if 128 ≤ v then 128 else 0) :: encodeLEBGo (v / 128) fuel

/-- The continuation bytes of `value`: `v` itself bounds the byte count. -/
def encodeLEBRest (v : Nat) : List Nat := encodeLEBGo v v

/-- Modelled from the spec: decoder of the varint continuation bytes. -/
def decodeLEBRest : List Nat → Option (Nat × List Nat)
  | [] => none
  | b :: rest =>
    if b < 128 then some (b, rest)
    else
      match decodeLEBRest rest with
      | none => none
      | some (v, rest') => some (b - 128 + v * 128, rest')

/-- Modelled from the spec: `encode_varint_flags` of `io/varint.rs`.  The
first byte is `flags · 2^(8-F) + cont · 2^(7-F) + value mod 2^(7-F)`. -/
def encode_varint_flags (fc value flags : Nat) : List Nat :=
  (flags * 2 ^ (8 - fc)
      + (if value / 2 ^ (7 - fc) ≠ 0 then 2 ^ (7 - fc) else 0)
      + value % 2 ^ (7 - fc))
    :: encodeLEBRest (value / 2 ^ (7 - fc))

/-- Modelled from the spec: `decode_varint_flags` of `io/varint.rs`,
returning `((value, flags), rest)`. -/
def decode_varint_flags (fc : Nat) : List Nat → Option ((Nat × Nat) × List Nat)
  | [] => none
  | b :: rest =>
    let flags := b / 2 ^ (8 - fc)
    let low := b % 2 ^ (7 - fc)
    if b / 2 ^ (7 - fc) % 2 = 1 then
      match decodeLEBRest rest with
      | none => none
      | some (v, rest') => some ((low + v * 2 ^ (7 - fc), flags), rest')
    else some ((low, flags), rest)

/-- Modelled from the spec: 2-bit packing of base codes, 4 per byte,
least-significant bits first (`⌈size/4⌉` bytes). -/
def packBases : List Nat → List Nat
  | [] => []
  | [b0] => [b0 % 4]
  | [b0, b1] => [b0 % 4 + b1 % 4 * 4]
  | [b0, b1, b2] => [b0 % 4 + b1 % 4 * 4 + b2 % 4 * 16]
  | b0 :: b1 :: b2 :: b3 :: rest =>
    (b0 % 4 + b1 % 4 * 4 + b2 % 4 * 16 + b3 % 4 * 64) :: packBases rest

/-- `n` base codes out of one packed byte, least-significant bits first. -/
def unpackByte (b : Nat) : Nat → List Nat
  | 0 => []
  | n + 1 => b % 4 :: unpackByte (b / 4) n

/-- The decoded view of `CompressedRead::new_from_compressed(bytes, size)`. -/
def unpackBases (size : Nat) : List Nat → List Nat
  | [] => []
  | b :: rest =>
    if size ≤ 4 then unpackByte b size
    else unpackByte b 4 ++ unpackBases (size - 4) rest

/-- A `SequenceExtraData` codec for the extra payload (its `encode` and
`decode` live outside `src/`; the round-trip contract is the hypothesis of
the codec claim). -/
structure ExtraCodec (ε : Type) where
  encode : ε → List Nat
  decode : List Nat → Option (ε × List Nat)

/-- The trivial payload codec (`E = ()`). -/
def unitExtraCodec : ExtraCodec Unit where
  encode := fun _ => []
  decode := fun s => some ((), s)

/-- `CompressedReadsBucketHelper::write_to`: optional second-bucket byte,
extra payload, `size_and_flags` varint, packed bases. -/
def write_to {ε : Type} (wsb : Bool) (EC : ExtraCodec ε) (fc : Nat)
    (read : List Nat) (flags : Nat) (extra_bucket : Nat) (extra : ε) : List Nat :=
  (if wsb then [extra_bucket] else [])
    ++ EC.encode extra
    ++ encode_varint_flags fc read.length flags
    ++ packBases read

/-- The part of `read_from` after the optional second-bucket byte: extra
payload, `size_and_flags` varint, `size = 0` terminator check, and the
packed-bases read. -/
def read_body {ε : Type} (EC : ExtraCodec ε) (fc : Nat) (second_bucket : Nat)
    (s1 : List Nat) : Option ((Nat × Nat × ε × List Nat) × List Nat) :=
  match EC.decode s1 with
  | none => none
  | some (extra, s2) =>
    match decode_varint_flags fc s2 with
    | none => none
    | some ((size, flags), s3) =>
      if size = 0 then none
      else
        let nbytes := (size + 3) / 4
        if s3.length < nbytes then none
        else some ((flags, second_bucket, extra,
          unpackBases size (s3.take nbytes)), s3.drop nbytes)

/-- `CompressedReadsBucketHelper::read_from`: returns
`((flags, second_bucket, extra, bases), rest)`; `size = 0` is the legal
terminator (no record); a truncated stream is also no record, and when
`WITH_SECOND_BUCKET` is false the reported second bucket is `0`. -/
def read_from {ε : Type} (wsb : Bool) (EC : ExtraCodec ε) (fc : Nat)
    (stream : List Nat) : Option ((Nat × Nat × ε × List Nat) × List Nat) :=
  if wsb then
    match stream with
    | [] => none
    | b :: rest => read_body EC fc b rest
  else read_body EC fc 0 stream

/-! ## Theorems -/

theorem fastexpGo_eq (exp : Nat) : ∀ result sqv : U64,
    fastexpGo result sqv exp = result * sqv ^ exp := by
  induction exp using Nat.strong_induction_on with
  | _ exp ih =>
    intro result sqv
    rw [fastexpGo]
    by_cases h0 : exp = 0
    · simp [h0]
    · have hlt : exp / 2 < exp := Nat.div_lt_self (Nat.pos_of_ne_zero h0) (by omega)
      rw [if_neg h0, ih _ hlt]
      rcases Nat.mod_two_eq_zero_or_one exp with h2 | h2
      · rw [h2, if_neg (by omega)]
        rw [← pow_two, ← pow_mul, show 2 * (exp / 2) = exp from by omega]
      · rw [h2, if_pos rfl]
        rw [← pow_two, ← pow_mul, mul_assoc, ← pow_succ',
          show 2 * (exp / 2) + 1 = exp from by omega]

theorem fastexp_eq (base : U64) (exp : Nat) : fastexp base exp = base ^ exp := by
  rw [fastexp, fastexpGo_eq, one_mul]

theorem get_rmmult_eq (k : Nat) : get_rmmult k = MULTIPLIER ^ (k - 1) :=
  fastexp_eq _ _

theorem hashFwd_nil : hashFwd [] = 0 := rfl

theorem hashFwd_concat (w : List Nat) (c : Nat) :
    hashFwd (w ++ [c]) = hashFwd w * MULTIPLIER + fwd_l c := by
  simp [hashFwd, List.foldl_append]

theorem hashFwd_foldl_shift (w : List Nat) : ∀ b : U64,
    w.foldl (fun h c => h * MULTIPLIER + fwd_l c) b
      = b * MULTIPLIER ^ w.length + hashFwd w := by
  induction w with
  | nil => intro b; simp [hashFwd]
  | cons a w ih =>
    intro b
    have hcons : hashFwd (a :: w) = fwd_l a * MULTIPLIER ^ w.length + hashFwd w := by
      show w.foldl _ ((0 : U64) * MULTIPLIER + fwd_l a) = _
      rw [zero_mul, zero_add, ih (fwd_l a)]
    show w.foldl _ (b * MULTIPLIER + fwd_l a) = _
    rw [ih (b * MULTIPLIER + fwd_l a), List.length_cons, hcons]
    ring

theorem hashFwd_cons (a : Nat) (w : List Nat) :
    hashFwd (a :: w) = fwd_l a * MULTIPLIER ^ w.length + hashFwd w := by
  show w.foldl _ ((0 : U64) * MULTIPLIER + fwd_l a) = _
  rw [zero_mul, zero_add, hashFwd_foldl_shift w (fwd_l a)]

theorem hashRev_cons (a : Nat) (w : List Nat) :
    hashRev (a :: w) = hashRev w * MULTIPLIER + bkw_l a := rfl

theorem hashRev_concat (w : List Nat) (c : Nat) :
    hashRev (w ++ [c]) = hashRev w + bkw_l c * MULTIPLIER ^ w.length := by
  induction w with
  | nil => simp [hashRev]
  | cons a w ih =>
    rw [List.cons_append, hashRev_cons, hashRev_cons, ih, List.length_cons]
    ring

theorem mult_inv_mul : MULT_INV * MULTIPLIER = 1 := by decide

theorem window_length (s : List Nat) (i m : Nat) (h : i + m ≤ s.length) :
    (window s i m).length = m := by
  simp [window]; omega

theorem window_concat (s : List Nat) (i m : Nat) (h : i + m < s.length) :
    window s i (m + 1) = window s i m ++ [s.getD (i + m) 0] := by
  have hlt : i + m < s.length := h
  rw [window, window, List.take_succ, List.getElem?_drop,
    List.getD_eq_getElem s 0 hlt, List.getElem?_eq_getElem hlt]
  rfl

theorem window_cons (s : List Nat) (i m : Nat) (h : i < s.length) :
    window s i (m + 1) = s.getD i 0 :: window s (i + 1) m := by
  rw [window, window, List.drop_eq_getElem_cons h, List.getD_eq_getElem s 0 h]
  rfl

/-- Invariant of the roll loop: started from the state holding the forward
hash of the `k-1` window at `i` and `M` times its reverse hash, the loop
emits exactly the from-scratch hashes of the `k`-windows. -/
theorem iterAux_spec (s : List Nat) (k : Nat) (hk : 1 ≤ k) :
    ∀ (fuel i : Nat), i + (k - 1) + fuel ≤ s.length →
      iterAux s (k - 1) (MULTIPLIER ^ (k - 1)) (i + (k - 1)) fuel
          (hashFwd (window s i (k - 1)), MULTIPLIER * hashRev (window s i (k - 1)))
        = (List.range fuel).map
            (fun j => (hashFwd (window s (i + j) k), hashRev (window s (i + j) k))) := by
  intro fuel
  induction fuel with
  | zero => intro i _; simp [iterAux]
  | succ fuel ih =>
    intro i hlen
    have hik : i + (k - 1) < s.length := by omega
    have hi : i < s.length := by omega
    have hwlen : (window s i (k - 1)).length = k - 1 :=
      window_length s i (k - 1) (by omega)
    have hwlen' : (window s (i + 1) (k - 1)).length = k - 1 :=
      window_length s (i + 1) (k - 1) (by omega)
    have hwin : window s i k = window s i (k - 1) ++ [s.getD (i + (k - 1)) 0] := by
      have := window_concat s i (k - 1) hik
      rwa [show k - 1 + 1 = k from by omega] at this
    have hwin' : window s i k = s.getD i 0 :: window s (i + 1) (k - 1) := by
      have := window_cons s i (k - 1) hi
      rwa [show k - 1 + 1 = k from by omega] at this
    rw [iterAux]
    have hemit_f : (hashFwd (window s i (k - 1))) * MULTIPLIER
        + fwd_l (s.getD (i + (k - 1)) 0) = hashFwd (window s i k) := by
      rw [hwin, hashFwd_concat]
    have hemit_r : (MULTIPLIER * hashRev (window s i (k - 1))) * MULT_INV
        + bkw_l (s.getD (i + (k - 1)) 0) * MULTIPLIER ^ (k - 1)
        = hashRev (window s i k) := by
      rw [hwin, hashRev_concat, hwlen]
      have : MULTIPLIER * hashRev (window s i (k - 1)) * MULT_INV
          = hashRev (window s i (k - 1)) := by
        calc MULTIPLIER * hashRev (window s i (k - 1)) * MULT_INV
            = (MULT_INV * MULTIPLIER) * hashRev (window s i (k - 1)) := by ring
          _ = hashRev (window s i (k - 1)) := by rw [mult_inv_mul, one_mul]
      rw [this]
    have hnext_f : hashFwd (window s i k)
        - fwd_l (s.getD (i + (k - 1) - (k - 1)) 0) * MULTIPLIER ^ (k - 1)
        = hashFwd (window s (i + 1) (k - 1)) := by
      rw [show i + (k - 1) - (k - 1) = i from by omega, hwin', hashFwd_cons, hwlen']
      ring
    have hnext_r : hashRev (window s i k) - bkw_l (s.getD (i + (k - 1) - (k - 1)) 0)
        = MULTIPLIER * hashRev (window s (i + 1) (k - 1)) := by
      rw [show i + (k - 1) - (k - 1) = i from by omega, hwin', hashRev_cons]
      ring
    simp only [roll_hash]
    rw [hemit_f, hemit_r, hnext_f, hnext_r,
      show i + (k - 1) + 1 = (i + 1) + (k - 1) from by omega,
      ih (i + 1) (by omega),
      List.range_succ_eq_map, List.map_cons, List.map_map]
    refine congrArg₂ _ ?_ ?_
    · rw [Nat.add_zero]
    · refine List.map_congr_left fun j _ => ?_
      simp only [Function.comp_apply, Nat.succ_eq_add_one]
      rw [show i + (j + 1) = i + 1 + j from by omega]

/-- The hash stream equals the list of from-scratch window hashes. -/
theorem iterHashes_eq (s : List Nat) (k : Nat) (hk : 1 ≤ k) (hlen : k - 1 ≤ s.length) :
    iterHashes s k = (List.range (s.length - (k - 1))).map
      (fun j => (hashFwd (window s j k), hashRev (window s j k))) := by
  have h0 := iterAux_spec s k hk (s.length - (k - 1)) 0 (by omega)
  simp only [Nat.zero_add] at h0
  have hnew : rkhashNew s k
      = (hashFwd (window s 0 (k - 1)), MULTIPLIER * hashRev (window s 0 (k - 1))) := by
    rw [rkhashNew]
    refine congrArg₂ _ rfl ?_
    rw [List.foldl_reverse, mul_comm]
    rfl
  rw [iterHashes, get_rmmult_eq, hnew]
  exact h0

theorem iterHashes_getElem? (s : List Nat) (k : Nat) (hk : 1 ≤ k)
    (i : Nat) (hi : i + k ≤ s.length) :
    (iterHashes s k)[i]? = some (hashFwd (window s i k), hashRev (window s i k)) := by
  rw [iterHashes_eq s k hk (by omega), List.getElem?_map,
    List.getElem?_range (by omega : i < s.length - (k - 1))]
  rfl

theorem min_u64_comm (a b : U64) : min_u64 a b = min_u64 b a := by
  by_cases h1 : a.val ≤ b.val <;> by_cases h2 : b.val ≤ a.val <;>
    simp only [min_u64, h1, h2, if_true, if_false]
  · exact ZMod.val_injective _ (le_antisymm h1 h2)
  · omega

theorem bkw_eq_fwd_complement (c : Nat) (h : acceptedBase c) :
    bkw_l c = fwd_l (complement c) := by
  unfold acceptedBase at h
  fin_cases h <;> rfl

theorem complement_complement (c : Nat) (h : acceptedBase c) :
    complement (complement c) = c := by
  unfold acceptedBase at h
  fin_cases h <;> rfl

theorem revComp_revComp (w : List Nat) (h : ∀ c ∈ w, acceptedBase c) :
    revComp (revComp w) = w := by
  unfold revComp
  rw [List.map_reverse, List.reverse_reverse, List.map_map]
  calc w.map (complement ∘ complement)
      = w.map id := List.map_congr_left fun c hc => complement_complement c (h c hc)
    _ = w := List.map_id w

theorem hashRev_eq_hashFwd_revComp (w : List Nat) (h : ∀ c ∈ w, acceptedBase c) :
    hashRev w = hashFwd (revComp w) := by
  induction w with
  | nil => rfl
  | cons a w ih =>
    have ha : acceptedBase a := h a (List.mem_cons_self a w)
    have hw : ∀ c ∈ w, acceptedBase c := fun c hc => h c (List.mem_cons_of_mem a hc)
    have hrc : revComp (a :: w) = revComp w ++ [complement a] := by
      simp [revComp]
    rw [hashRev_cons, hrc, hashFwd_concat, ← ih hw, bkw_eq_fwd_complement a ha]

theorem window_revComp (s : List Nat) (k i : Nat) (hi : i + k ≤ s.length) :
    window (revComp s) (s.length - k - i) k = revComp (window s i k) := by
  unfold window revComp
  rw [List.map_take, List.map_drop, List.drop_reverse, List.take_reverse]
  congr 1
  rw [List.length_take, List.length_map,
    show s.length - (s.length - k - i) = k + i from by omega,
    show min (k + i) s.length - k = i from by omega,
    List.drop_take, show k + i - i = k from by omega]

/-! ## Claim theorems: rolling hash -/

/-- C1: for every `k ∈ [2, 4096)` and every sequence `s` over the accepted
alphabet with `|s| ≥ k`, the extendable hash emitted by the rolling iterator
at position `i` (`Construct` followed by repeated `Roll`) equals the hash
recomputed from scratch over the window `s[i..i+k]` by the direct polynomial
definition, for both the forward and the reverse components; the forward
polynomial satisfies `fwd(w ++ [c]) = fwd(w)·M + fwd_l(c)` with 64-bit
wrapping arithmetic. -/
theorem C1_rolling_hash_matches_scratch (k : Nat) (s : List Nat)
    (hk2 : 2 ≤ k) (hk4096 : k < 4096)
    (halpha : ∀ c ∈ s, acceptedBase c) (hlen : k ≤ s.length)
    (i : Nat) (hi : i + k ≤ s.length) :
    (iterHashes s k)[i]? = some (hashFwd (window s i k), hashRev (window s i k))
      ∧ ∀ (w : List Nat) (c : Nat),
          hashFwd (w ++ [c]) = hashFwd w * MULTIPLIER + fwd_l c :=
  ⟨iterHashes_getElem? s k (by omega) i hi, hashFwd_concat⟩

/-- Witness for C1 at `k = 3`, `s = "ACGT"` (ASCII), `i = 1`. -/
theorem C1_rolling_hash_matches_scratch_witness :
    (iterHashes [65, 67, 71, 84] 3)[1]?
        = some (hashFwd (window [65, 67, 71, 84] 1 3),
                hashRev (window [65, 67, 71, 84] 1 3))
      ∧ hashFwd ([65, 67] ++ [71]) = hashFwd [65, 67] * MULTIPLIER + fwd_l 71 :=
  ⟨(C1_rolling_hash_matches_scratch 3 [65, 67, 71, 84] (by decide) (by decide)
      (by decide) (by decide) 1 (by decide)).1,
   (C1_rolling_hash_matches_scratch 3 [65, 67, 71, 84] (by decide) (by decide)
      (by decide) (by decide) 1 (by decide)).2 [65, 67] 71⟩

/-- C2: the unextendable canonical hash at position `i` is
`min(H_fwd(window), H_fwd(reverse_complement(window)))`, and the canonical
hash of `s` at `i` equals the canonical hash of `reverse_complement(s)` at
`|s| - k - i`. -/
theorem C2_canonical_hash_min_revcomp (k : Nat) (s : List Nat)
    (hk : 2 ≤ k) (hlen : k ≤ s.length)
    (halpha : ∀ c ∈ s, acceptedBase c)
    (i : Nat) (hi : i + k ≤ s.length) :
    ((iterHashes s k)[i]?).map to_unextendable
        = some (min_u64 (hashFwd (window s i k)) (hashFwd (revComp (window s i k))))
      ∧ ((iterHashes s k)[i]?).map to_unextendable
        = ((iterHashes (revComp s) k)[s.length - k - i]?).map to_unextendable := by
  have hwmem : ∀ c ∈ window s i k, acceptedBase c := fun c hc =>
    halpha c (List.mem_of_mem_drop (List.mem_of_mem_take hc))
  have h1 : (iterHashes s k)[i]? = some (hashFwd (window s i k), hashRev (window s i k)) :=
    iterHashes_getElem? s k (by omega) i hi
  have hmin : ((iterHashes s k)[i]?).map to_unextendable
      = some (min_u64 (hashFwd (window s i k)) (hashFwd (revComp (window s i k)))) := by
    rw [h1, Option.map_some', to_unextendable,
      hashRev_eq_hashFwd_revComp (window s i k) hwmem]
  refine ⟨hmin, ?_⟩
  have hlen' : (revComp s).length = s.length := by
    simp [revComp]
  have h2 : (iterHashes (revComp s) k)[s.length - k - i]?
      = some (hashFwd (window (revComp s) (s.length - k - i) k),
              hashRev (window (revComp s) (s.length - k - i) k)) := by
    refine iterHashes_getElem? (revComp s) k (by omega) (s.length - k - i) ?_
    rw [hlen']; omega
  have hwrc : window (revComp s) (s.length - k - i) k = revComp (window s i k) :=
    window_revComp s k i hi
  have hrcmem : ∀ c ∈ revComp (window s i k), acceptedBase c := by
    intro c hc
    unfold revComp at hc
    rw [List.mem_reverse, List.mem_map] at hc
    obtain ⟨a, ha, rfl⟩ := hc
    have := hwmem a ha
    unfold acceptedBase at this ⊢
    fin_cases this <;> decide
  rw [hmin, h2, Option.map_some', hwrc, to_unextendable,
    hashRev_eq_hashFwd_revComp (revComp (window s i k)) hrcmem,
    revComp_revComp (window s i k) hwmem, min_u64_comm]

/-- Witness for C2 at `k = 3`, `s = "ACGT"` (ASCII), `i = 0`: the windows
`ACG` and `CGT` are reverse complements. -/
theorem C2_canonical_hash_min_revcomp_witness :
    ((iterHashes [65, 67, 71, 84] 3)[0]?).map to_unextendable
        = some (min_u64 (hashFwd (window [65, 67, 71, 84] 0 3))
                        (hashFwd (revComp (window [65, 67, 71, 84] 0 3))))
      ∧ ((iterHashes [65, 67, 71, 84] 3)[0]?).map to_unextendable
        = ((iterHashes (revComp [65, 67, 71, 84]) 3)[4 - 3 - 0]?).map to_unextendable :=
  C2_canonical_hash_min_revcomp 3 [65, 67, 71, 84] (by decide) (by decide)
    (by decide) 0 (by decide)

/-- C6: `manual_roll_forward` applied to the hash of a window `a :: t` of
length `k` with `out = a` and `in = c` yields the hash of the shifted window
`t ++ [c]`, in both components — the same update the stateful iterator
performs. -/
theorem C6_manual_roll_forward_shifts_window (k : Nat) (a c : Nat) (t : List Nat)
    (hk : 2 ≤ k) (hlen : (a :: t).length = k) :
    manual_roll_forward (hashFwd (a :: t), hashRev (a :: t)) k a c
      = (hashFwd (t ++ [c]), hashRev (t ++ [c])) := by
  have hlent : t.length = k - 1 := by
    simp only [List.length_cons] at hlen; omega
  rw [manual_roll_forward, get_rmmult_eq]
  refine congrArg₂ _ ?_ ?_
  · rw [hashFwd_cons, hashFwd_concat, hlent]
    ring
  · rw [hashRev_cons, hashRev_concat, hlent]
    have hdrop : (hashRev t * MULTIPLIER + bkw_l a - bkw_l a) * MULT_INV
        = hashRev t := by
      rw [show hashRev t * MULTIPLIER + bkw_l a - bkw_l a
          = hashRev t * MULTIPLIER from by ring]
      calc hashRev t * MULTIPLIER * MULT_INV
          = hashRev t * (MULT_INV * MULTIPLIER) := by ring
        _ = hashRev t := by rw [mult_inv_mul, mul_one]
    rw [hdrop]

/-- Witness for C6 at `k = 2`, window `"AC"`, incoming base `G` (ASCII). -/
theorem C6_manual_roll_forward_shifts_window_witness :
    manual_roll_forward (hashFwd [65, 67], hashRev [65, 67]) 2 65 71
      = (hashFwd ([67] ++ [71]), hashRev ([67] ++ [71])) :=
  C6_manual_roll_forward_shifts_window 2 65 71 [67] (by decide) (by decide)

/-- C8 counterexample: `get_second_bucket` and `get_minimizer` do NOT report
"unsupported" without a fatal error — at hash `0` both take the `panic!`
branch (embedded as `Except.error`), never returning a value. -/
theorem C8_get_second_bucket_panics_cex :
    get_second_bucket 0 = Except.error "Not supported!"
      ∧ get_minimizer 0 = Except.error "Not supported!"
      ∧ (get_second_bucket 0).isOk = false
      ∧ (get_minimizer 0).isOk = false :=
  ⟨rfl, rfl, rfl, rfl⟩

/-- C8 amended: for every hash value, calling `get_second_bucket` or
`get_minimizer` on the canonical Rabin-Karp factory aborts fatally with the
panic message "Not supported!" (embedded as the `Except.error` branch). -/
theorem C8_get_second_bucket_always_panics (h : U64) :
    get_second_bucket h = Except.error "Not supported!"
      ∧ get_minimizer h = Except.error "Not supported!" :=
  ⟨rfl, rfl⟩

/-! ### Lemmas about the worker building blocks -/

theorem sortByKey_chain' {α : Type} (key : α → Nat) (l : List α) :
    List.Chain' (fun a b => key a ≤ key b) (sortByKey key l) := by
  have ht : IsTotal α (fun a b => key a ≤ key b) := ⟨fun a b => Nat.le_total _ _⟩
  have htr : IsTrans α (fun a b => key a ≤ key b) := ⟨fun _ _ _ => Nat.le_trans⟩
  exact (List.sorted_insertionSort _ l).chain'

theorem sortByKey_eq_nil_iff {α : Type} (key : α → Nat) (l : List α) :
    sortByKey key l = [] ↔ l = [] := by
  constructor
  · intro h
    have := (List.perm_insertionSort (fun a b => key a ≤ key b) l).symm
    rw [sortByKey] at h
    rw [h] at this
    exact this.eq_nil
  · intro h; subst h; rfl

theorem chunkBy_cons_head {α : Type} (p : α → α → Bool) :
    ∀ (l : List α) (a : α), ∃ t gs, chunkBy p (a :: l) = (a :: t) :: gs := by
  intro l
  induction l with
  | nil => intro a; exact ⟨[], [], rfl⟩
  | cons b l' ih =>
    intro a
    obtain ⟨t, gs, heq⟩ := ih b
    simp only [chunkBy, heq]
    by_cases hp : p a b
    · exact ⟨b :: t, gs, by rw [if_pos hp]⟩
    · exact ⟨[], (b :: t) :: gs, by rw [if_neg hp]⟩

theorem chunkBy_eq_nil_iff {α : Type} (p : α → α → Bool) (l : List α) :
    chunkBy p l = [] ↔ l = [] := by
  cases l with
  | nil => simp [chunkBy]
  | cons a l' =>
    obtain ⟨t, gs, heq⟩ := chunkBy_cons_head p l' a
    simp [heq]

theorem chunkBy_ne_nil_mem {α : Type} (p : α → α → Bool) :
    ∀ (l : List α) (g : List α), g ∈ chunkBy p l → g ≠ [] := by
  intro l
  induction l with
  | nil => intro g hg; simp [chunkBy] at hg
  | cons a l' ih =>
    intro g hg
    cases l' with
    | nil =>
      simp only [chunkBy, List.mem_singleton] at hg
      subst hg; simp
    | cons b l'' =>
      obtain ⟨t, gs, heq⟩ := chunkBy_cons_head p l'' b
      simp only [chunkBy, heq] at hg
      by_cases hp : p a b
      · rw [if_pos hp] at hg
        rcases List.mem_cons.mp hg with rfl | hg'
        · simp
        · exact ih g (heq ▸ List.mem_cons_of_mem _ hg')
      · rw [if_neg hp] at hg
        rcases List.mem_cons.mp hg with rfl | hg'
        · simp
        · exact ih g (heq ▸ hg')

theorem chunkBy_chain' {α : Type} (p : α → α → Bool) (R : α → α → Prop) :
    ∀ (l : List α), List.Chain' R l → ∀ g ∈ chunkBy p l, List.Chain' R g := by
  intro l
  induction l with
  | nil => intro _ g hg; simp [chunkBy] at hg
  | cons a l' ih =>
    intro hl g hg
    cases l' with
    | nil =>
      simp only [chunkBy, List.mem_singleton] at hg
      subst hg
      exact List.chain'_singleton a
    | cons b l'' =>
      obtain ⟨t, gs, heq⟩ := chunkBy_cons_head p l'' b
      have htail : List.Chain' R (b :: l'') := hl.tail
      have hab : R a b := (List.chain'_cons.mp hl).1
      simp only [chunkBy, heq] at hg
      by_cases hp : p a b
      · rw [if_pos hp] at hg
        rcases List.mem_cons.mp hg with rfl | hg'
        · have hbt : List.Chain' R (b :: t) :=
            ih htail (b :: t) (heq ▸ List.mem_cons_self _ _)
          exact List.chain'_cons.mpr ⟨hab, hbt⟩
        · exact ih htail g (heq ▸ List.mem_cons_of_mem _ hg')
      · rw [if_neg hp] at hg
        rcases List.mem_cons.mp hg with rfl | hg'
        · exact List.chain'_singleton a
        · exact ih htail g (heq ▸ hg')

theorem chunkBy_pred {α : Type} (p : α → α → Bool) :
    ∀ (l : List α) (g : List α), g ∈ chunkBy p l →
      List.Chain' (fun a b => p a b = true) g := by
  intro l
  induction l with
  | nil => intro g hg; simp [chunkBy] at hg
  | cons a l' ih =>
    intro g hg
    cases l' with
    | nil =>
      simp only [chunkBy, List.mem_singleton] at hg
      subst hg
      exact List.chain'_singleton a
    | cons b l'' =>
      obtain ⟨t, gs, heq⟩ := chunkBy_cons_head p l'' b
      simp only [chunkBy, heq] at hg
      by_cases hp : p a b
      · rw [if_pos hp] at hg
        rcases List.mem_cons.mp hg with rfl | hg'
        · have hbt : List.Chain' (fun a b => p a b = true) (b :: t) :=
            ih (b :: t) (heq ▸ List.mem_cons_self _ _)
          exact List.chain'_cons.mpr ⟨hp, hbt⟩
        · exact ih g (heq ▸ List.mem_cons_of_mem _ hg')
      · rw [if_neg hp] at hg
        rcases List.mem_cons.mp hg with rfl | hg'
        · exact List.chain'_singleton a
        · exact ih g (heq ▸ hg')

/-- In a chain of key-equalities every member has the head's key. -/
theorem chain'_key_eq {α : Type} (f : α → Nat) :
    ∀ (t : List α) (a : α), List.Chain' (fun x y => f x = f y) (a :: t) →
      ∀ y ∈ a :: t, f y = f a := by
  intro t
  induction t with
  | nil =>
    intro a _ y hy
    rw [List.mem_singleton.mp hy]
  | cons b t' ih =>
    intro a hchain y hy
    have hab : f a = f b := (List.chain'_cons.mp hchain).1
    have htail : List.Chain' (fun x y => f x = f y) (b :: t') :=
      (List.chain'_cons.mp hchain).2
    rcases List.mem_cons.mp hy with rfl | hy'
    · rfl
    · rw [ih b htail y hy', hab]

theorem mapE_ok_mem {α β : Type} (f : α → Except String β) :
    ∀ (l : List α) (out : List β), mapE f l = Except.ok out →
      ∀ b ∈ out, ∃ a ∈ l, f a = Except.ok b := by
  intro l
  induction l with
  | nil =>
    intro out hout b hb
    rw [mapE] at hout
    cases hout
    simp at hb
  | cons a l' ih =>
    intro out hout b hb
    rw [mapE] at hout
    cases hfa : f a with
    | error e => rw [hfa] at hout; cases hout
    | ok x =>
      rw [hfa] at hout
      cases hrest : mapE f l' with
      | error e => rw [hrest] at hout; cases hout
      | ok xs =>
        rw [hrest] at hout
        cases hout
        rcases List.mem_cons.mp hb with rfl | hb'
        · exact ⟨a, List.mem_cons_self _ _, hfa⟩
        · obtain ⟨a', ha', hfa'⟩ := ih xs hrest b hb'
          exact ⟨a', List.mem_cons_of_mem _ ha', hfa'⟩

theorem mapE_isErr_iff {α β : Type} (f : α → Except String β) :
    ∀ (l : List α), isErr (mapE f l) = true ↔ ∃ a ∈ l, isErr (f a) = true := by
  intro l
  induction l with
  | nil => simp [mapE, isErr]
  | cons a l' ih =>
    rw [mapE]
    cases hfa : f a with
    | error e =>
      simp only [isErr, true_iff]
      exact ⟨a, List.mem_cons_self _ _, by simp [hfa, isErr]⟩
    | ok x =>
      cases hrest : mapE f l' with
      | error e =>
        simp only [isErr, true_iff]
        obtain ⟨a', ha', herr⟩ := (ih).mp (by simp [hrest, isErr])
        exact ⟨a', List.mem_cons_of_mem _ ha', herr⟩
      | ok xs =>
        simp only [isErr]
        refine iff_of_false (by simp) ?_
        rintro ⟨a', ha', herr⟩
        rcases List.mem_cons.mp ha' with rfl | ha''
        · rw [hfa] at herr
          simp [isErr] at herr
        · have hcontra : isErr (mapE f l') = true := (ih).mpr ⟨a', ha'', herr⟩
          rw [hrest] at hcontra
          simp [isErr] at hcontra

/-! ### Correctness of the range encoding -/

theorem rangesGo_head (colors : List Nat) : ∀ rs re : Nat,
    ∃ e t, rangesGo rs re colors = (rs, e) :: t := by
  induction colors with
  | nil => intro rs re; exact ⟨re, [], rfl⟩
  | cons c rest ih =>
    intro rs re
    by_cases hc : c = re
    · obtain ⟨e, t, heq⟩ := ih rs (c + 1)
      exact ⟨e, t, by rw [rangesGo, if_pos hc, heq]⟩
    · exact ⟨re, rangesGo c (c + 1) rest, by rw [rangesGo, if_neg hc]⟩

theorem rangesGo_spec (colors : List Nat) : ∀ rs re : Nat,
    rs < re → List.Chain' (· < ·) ((re - 1) :: colors) →
      List.Chain' (fun r₁ r₂ : Nat × Nat => r₁.2 < r₂.1) (rangesGo rs re colors)
      ∧ (∀ r ∈ rangesGo rs re colors, r.1 < r.2)
      ∧ ∀ x : Nat, (∃ r ∈ rangesGo rs re colors, r.1 ≤ x ∧ x < r.2)
          ↔ (rs ≤ x ∧ x < re ∨ x ∈ colors) := by
  induction colors with
  | nil =>
    intro rs re hlt _
    refine ⟨List.chain'_singleton _, ?_, ?_⟩
    · intro r hr
      rw [List.mem_singleton.mp hr]
      exact hlt
    · intro x
      simp only [rangesGo, List.exists_mem_cons_iff, List.not_mem_nil]
      constructor
      · rintro (⟨h1, h2⟩ | ⟨r, hr, _⟩)
        · exact Or.inl ⟨h1, h2⟩
        · simp at hr
      · rintro (⟨h1, h2⟩ | h)
        · exact Or.inl ⟨h1, h2⟩
        · cases h
  | cons c rest ih =>
    intro rs re hlt hchain
    have hrec : re - 1 < c := (List.chain'_cons.mp hchain).1
    have htail : List.Chain' (· < ·) (c :: rest) := (List.chain'_cons.mp hchain).2
    by_cases hc : c = re
    · subst hc
      rw [rangesGo, if_pos rfl]
      have hchain' : List.Chain' (· < ·) ((c + 1 - 1) :: rest) := by
        rw [show c + 1 - 1 = c from rfl]
        exact htail
      obtain ⟨h1, h2, h3⟩ := ih rs (c + 1) (by omega) hchain'
      refine ⟨h1, h2, ?_⟩
      intro x
      rw [h3 x, List.mem_cons]
      constructor
      · rintro (⟨ha, hb⟩ | hm)
        · by_cases hxc : x = c
          · exact Or.inr (Or.inl hxc)
          · exact Or.inl ⟨ha, by omega⟩
        · exact Or.inr (Or.inr hm)
      · rintro (⟨ha, hb⟩ | hxc | hm)
        · exact Or.inl ⟨ha, by omega⟩
        · exact Or.inl ⟨by omega, by omega⟩
        · exact Or.inr hm
    · rw [rangesGo, if_neg hc]
      have hre : re < c := by omega
      have hchain' : List.Chain' (· < ·) ((c + 1 - 1) :: rest) := by
        rw [show c + 1 - 1 = c from rfl]
        exact htail
      obtain ⟨h1, h2, h3⟩ := ih c (c + 1) (by omega) hchain'
      refine ⟨?_, ?_, ?_⟩
      · obtain ⟨e, t, heq⟩ := rangesGo_head rest c (c + 1)
        rw [heq]
        rw [heq] at h1
        exact List.chain'_cons.mpr ⟨hre, h1⟩
      · intro r hr
        rcases List.mem_cons.mp hr with rfl | hr'
        · exact hlt
        · exact h2 r hr'
      · intro x
        rw [List.exists_mem_cons_iff, h3 x, List.mem_cons]
        constructor
        · rintro (⟨ha, hb⟩ | ⟨hc1, hc2⟩ | hm)
          · exact Or.inl ⟨ha, hb⟩
          · exact Or.inr (Or.inl (by omega))
          · exact Or.inr (Or.inr hm)
        · rintro (⟨ha, hb⟩ | hxc | hm)
          · exact Or.inl ⟨ha, hb⟩
          · exact Or.inr (Or.inl (by omega))
          · exact Or.inr (Or.inr hm)

theorem U32_MAX_eq : U32_MAX = 4294967295 := by norm_num [U32_MAX]

theorem rangeEncodeLoop_eq_rangesGo (colors : List Nat) : ∀ (rs re : Nat)
    (acc : List (Nat × Nat)), rs < U32_MAX → (∀ c ∈ colors, c < U32_MAX) →
      rangeEncodeLoop colors rs re acc = acc ++ rangesGo rs re colors := by
  induction colors with
  | nil => intro rs re acc _ _; rw [rangeEncodeLoop, rangesGo]
  | cons c rest ih =>
    intro rs re acc hrs hmax
    have hcmax : c < U32_MAX := hmax c (List.mem_cons_self _ _)
    have hmod : (c + 1) % 2 ^ 32 = c + 1 := by
      have := U32_MAX_eq
      exact Nat.mod_eq_of_lt (by omega)
    have hrest : ∀ x ∈ rest, x < U32_MAX := fun x hx =>
      hmax x (List.mem_cons_of_mem _ hx)
    by_cases hc : c = re
    · rw [rangeEncodeLoop, if_neg (by simpa using hc), hmod, rangesGo, if_pos hc,
        ih rs (c + 1) acc hrs hrest]
    · rw [rangeEncodeLoop, if_pos (by simpa using hc), hmod, rangesGo, if_neg hc,
        if_pos (by omega), ih c (c + 1) (acc ++ [(rs, re)]) hcmax hrest]
      simp

theorem rangeEncode_cons_eq (c : Nat) (rest : List Nat)
    (hmax : ∀ x ∈ c :: rest, x < U32_MAX) :
    rangeEncode (c :: rest) = rangesGo c (c + 1) rest := by
  have hcmax : c < U32_MAX := hmax c (List.mem_cons_self _ _)
  have hmod : (c + 1) % 2 ^ 32 = c + 1 := by
    have := U32_MAX_eq
    exact Nat.mod_eq_of_lt (by omega)
  rw [rangeEncode, rangeEncodeLoop, if_pos (by simpa using (by omega : c ≠ U32_MAX)),
    hmod, if_neg (by simp),
    rangeEncodeLoop_eq_rangesGo rest c (c + 1) [] hcmax
      (fun x hx => hmax x (List.mem_cons_of_mem _ hx)),
    List.nil_append]

theorem rangeEncodeLoop_ne_nil (colors : List Nat) : ∀ (rs re : Nat)
    (acc : List (Nat × Nat)), rangeEncodeLoop colors rs re acc ≠ [] := by
  induction colors with
  | nil => intro rs re acc; rw [rangeEncodeLoop]; simp
  | cons c rest ih =>
    intro rs re acc
    rw [rangeEncodeLoop]
    by_cases hc : c = re
    · rw [if_neg (by simpa using hc)]
      exact ih _ _ _
    · rw [if_pos (by simpa using hc)]
      exact ih _ _ _

/-! ### Claim theorems: range encoding -/

/-- C5 counterexample: the color set `[u32::MAX]` is a strictly ascending
sequence of 32-bit integers, yet the encoded blob is the single wrapped
range `[MAX, 0)`, whose union does not contain `MAX`: the decomposition
does not cover the input set. -/
theorem C5_range_encode_max_cex :
    rangeEncode [4294967295] = [(4294967295, 0)]
      ∧ ¬ ∃ r ∈ rangeEncode [4294967295], r.1 ≤ 4294967295 ∧ 4294967295 < r.2 := by
  constructor
  · rfl
  · decide

/-- C5 amended: for every strictly ascending color set whose elements are
all below the sentinel `u32::MAX`, the emitted ranges are pairwise disjoint
and non-adjacent (`b_i < a_{i+1}`, i.e. `b_i ≤ a_{i+1} - 1`), their union is
exactly the input set, and (for a nonempty set) every emitted range is
nonempty — so they are the minimal decomposition into maximal runs. -/
theorem C5_range_encode_minimal (colors : List Nat)
    (hasc : List.Chain' (· < ·) colors)
    (hmax : ∀ c ∈ colors, c < U32_MAX) :
    List.Chain' (fun r₁ r₂ : Nat × Nat => r₁.2 < r₂.1) (rangeEncode colors)
      ∧ (∀ x : Nat, (∃ r ∈ rangeEncode colors, r.1 ≤ x ∧ x < r.2) ↔ x ∈ colors)
      ∧ (colors ≠ [] → ∀ r ∈ rangeEncode colors, r.1 < r.2) := by
  cases colors with
  | nil =>
    refine ⟨List.chain'_singleton _, ?_, fun h => absurd rfl h⟩
    intro x
    simp only [rangeEncode, rangeEncodeLoop, List.nil_append,
      List.exists_mem_cons_iff, List.not_mem_nil, iff_false]
    rintro (⟨h1, h2⟩ | ⟨r, hr, _⟩)
    · omega
    · simp at hr
  | cons c rest =>
    rw [rangeEncode_cons_eq c rest hmax]
    have hchain : List.Chain' (· < ·) ((c + 1 - 1) :: rest) := by
      rw [show c + 1 - 1 = c from rfl]
      exact hasc
    obtain ⟨h1, h2, h3⟩ := rangesGo_spec rest c (c + 1) (by omega) hchain
    refine ⟨h1, ?_, fun _ => h2⟩
    intro x
    rw [h3 x, List.mem_cons]
    constructor
    · rintro (⟨ha, hb⟩ | hm)
      · exact Or.inl (by omega)
      · exact Or.inr hm
    · rintro (rfl | hm)
      · exact Or.inl ⟨le_refl x, by omega⟩
      · exact Or.inr hm

/-- Witness for C5 at the set `[10, 11, 12, 20]` (scenario S3): ranges
`[10,13)` and `[20,21)`. -/
theorem C5_range_encode_minimal_witness :
    List.Chain' (fun r₁ r₂ : Nat × Nat => r₁.2 < r₂.1) (rangeEncode [10, 11, 12, 20])
      ∧ ((∃ r ∈ rangeEncode [10, 11, 12, 20], r.1 ≤ 12 ∧ 12 < r.2)
          ↔ 12 ∈ [10, 11, 12, 20])
      ∧ ((10, 13) ∈ rangeEncode [10, 11, 12, 20] → (10, 13).1 < (10, 13).2) :=
  ⟨(C5_range_encode_minimal [10, 11, 12, 20] (by norm_num [List.chain'_cons]) (by decide)).1,
   (C5_range_encode_minimal [10, 11, 12, 20] (by norm_num [List.chain'_cons]) (by decide)).2.1 12,
   (C5_range_encode_minimal [10, 11, 12, 20] (by norm_num [List.chain'_cons]) (by decide)).2.2
     (by decide) (10, 13)⟩

/-- C9: with an empty color set the encoding loop never runs and the final
write is unconditional, so the blob is exactly the sentinel range
`[u32::MAX, u32::MAX)`; more generally the emitted blob is never empty. -/
theorem C9_empty_color_set_sentinel :
    rangeEncode [] = [(U32_MAX, U32_MAX)]
      ∧ ∀ colors : List Nat, rangeEncode colors ≠ [] :=
  ⟨rfl, fun colors => rangeEncodeLoop_ne_nil colors _ _ _⟩

/-! ### Tracking emitted records back to their color group -/

theorem processGroup_mem (colormap : Nat → List Nat) (bc qc : Nat)
    (group : List CounterEntry) (lg : List (Nat × QueryColoredCounters))
    (hok : processGroup colormap bc qc group = Except.ok lg)
    (r : Nat × QueryColoredCounters) (hr : r ∈ lg) :
    ∃ entries, entries ∈ chunkBy (fun a b =>
          get_query_bucket bc qc a.1 == get_query_bucket bc qc b.1)
        (sortByKey (fun q => q.1) (group.map (fun e => (e.1, e.2.1))))
      ∧ r.2.queries = entries
      ∧ r.1 = get_query_bucket bc qc (match entries with | [] => 0 | e :: _ => e.1) := by
  cases group with
  | nil =>
    rw [processGroup] at hok
    cases hok
    simp at hr
  | cons e0 grest =>
    rw [processGroup] at hok
    by_cases h0 : rounded_queries_count qc = 0
    · rw [if_pos h0] at hok; cases hok
    · rw [if_neg h0] at hok
      cases hok
      obtain ⟨entries, hentries, heq⟩ := List.mem_map.mp hr
      exact ⟨entries, hentries, by rw [← heq], by rw [← heq]⟩

theorem processBucket_mem (colormap : Nat → List Nat) (bc qc : Nat)
    (bucket : List CounterEntry) (outb : List (Nat × QueryColoredCounters))
    (hok : processBucket colormap bc qc bucket = Except.ok outb)
    (r : Nat × QueryColoredCounters) (hr : r ∈ outb) :
    ∃ group ∈ chunkBy (fun a b => a.2.2 == b.2.2) (sortByKey (fun e => e.2.2) bucket),
      ∃ lg, processGroup colormap bc qc group = Except.ok lg ∧ r ∈ lg := by
  rw [processBucket] at hok
  cases hm : mapE (processGroup colormap bc qc)
      (chunkBy (fun a b => a.2.2 == b.2.2) (sortByKey (fun e => e.2.2) bucket)) with
  | error e => rw [hm] at hok; cases hok
  | ok t =>
    rw [hm] at hok
    cases hok
    obtain ⟨lg, hlg, hrlg⟩ := List.mem_flatten.mp hr
    obtain ⟨group, hgroup, hpg⟩ := mapE_ok_mem _ _ t hm lg hlg
    exact ⟨group, hgroup, lg, hpg, hrlg⟩

theorem colormap_reading_mem (colormap : Nat → List Nat) (qc : Nat)
    (buckets : List (List CounterEntry)) (out : List (Nat × QueryColoredCounters))
    (hok : colormap_reading colormap qc buckets = Except.ok out)
    (r : Nat × QueryColoredCounters) (hr : r ∈ out) :
    ∃ bucket ∈ buckets, ∃ outb,
      processBucket colormap buckets.length qc bucket = Except.ok outb ∧ r ∈ outb := by
  rw [colormap_reading] at hok
  cases hm : mapE (processBucket colormap buckets.length qc) buckets with
  | error e => rw [hm] at hok; cases hok
  | ok t =>
    rw [hm] at hok
    cases hok
    obtain ⟨outb, houtb, hroutb⟩ := List.mem_flatten.mp hr
    obtain ⟨bucket, hbucket, hpb⟩ := mapE_ok_mem _ _ t hm outb houtb
    exact ⟨bucket, hbucket, outb, hpb, hroutb⟩

/-! ### Claim theorems: bucketing and record ordering -/

/-- C7 counterexample: an input bucket holding two counters for the same
query (query 5, color 7) yields a single record whose `queries` are
`[(5,1), (5,2)]` — ascending but NOT strictly ascending by `query_index`. -/
theorem C7_duplicate_query_cex :
    colormap_reading (fun _ => [1]) 1000 [[(5, 1, 7), (5, 2, 7)]]
        = Except.ok [(0, ⟨[(5, 1), (5, 2)], [(1, 2)]⟩)]
      ∧ ¬ List.Chain' (fun a b : Nat × Nat => a.1 < b.1) [(5, 1), (5, 2)] := by
  refine ⟨rfl, fun h => ?_⟩
  have := (List.chain'_cons.mp h).1
  simp at this

/-- C7 amended: within every record emitted by `colormap_reading`, the
`QueryColorDesc` entries are ascending (non-strictly) by `query_index`:
duplicated query indices inside one color group produce equal adjacent
entries, so strictness fails exactly there. -/
theorem C7_record_queries_ascending (colormap : Nat → List Nat) (queries_count : Nat)
    (buckets : List (List CounterEntry)) (out : List (Nat × QueryColoredCounters))
    (hok : colormap_reading colormap queries_count buckets = Except.ok out)
    (r : Nat × QueryColoredCounters) (hr : r ∈ out) :
    List.Chain' (fun a b : Nat × Nat => a.1 ≤ b.1) r.2.queries := by
  obtain ⟨bucket, _, outb, hpb, hrb⟩ := colormap_reading_mem colormap queries_count
    buckets out hok r hr
  obtain ⟨group, hgroup, lg, hpg, hrg⟩ := processBucket_mem colormap buckets.length
    queries_count bucket outb hpb r hrb
  obtain ⟨entries, hentries, hq, _⟩ := processGroup_mem colormap buckets.length
    queries_count group lg hpg r hrg
  rw [hq]
  exact chunkBy_chain' _ _ _ (sortByKey_chain' _ _) entries hentries

/-- Witness for C7 on the duplicate-query input. -/
theorem C7_record_queries_ascending_witness :
    List.Chain' (fun a b : Nat × Nat => a.1 ≤ b.1) [(5, 1), (5, 2)] :=
  C7_record_queries_ascending (fun _ => [1]) 1000 [[(5, 1, 7), (5, 2, 7)]]
    [(0, ⟨[(5, 1), (5, 2)], [(1, 2)]⟩)] rfl
    (0, ⟨[(5, 1), (5, 2)], [(1, 2)]⟩) (List.mem_singleton.mpr rfl)

/-- C4 counterexample: the destination bucket is computed with a WRAPPING
`u64` product.  With `queries_count = 1000`, two buckets and
`q = 2^63`, the code computes `(2^63 * 2) mod 2^64 = 0`, sending the record
to bucket `0`, while the claim's exact formula
`min(buckets_count - 1, q * buckets_count / R)` gives bucket `1`. -/
theorem C4_bucketing_overflow_cex :
    colormap_reading (fun _ => [1]) 1000 [[(9223372036854775808, 1, 0)], []]
        = Except.ok [(0, ⟨[(9223372036854775808, 1)], [(1, 2)]⟩)]
      ∧ (0 : Nat) ≠ min (2 - 1) (9223372036854775808 * 2 / 1000) :=
  ⟨rfl, by decide⟩

/-- C4 amended: every `QueryColorDesc` with `query_index = q` emitted into
bucket `b` satisfies
`b = min(buckets_count - 1, (q * buckets_count mod 2^64) / R)` with
`R = (⌈queries_count/1000⌉ * 1000) mod 2^64` — i.e. the claim's formula with
its products taken in `u64` (wrapping) arithmetic, as the code computes
them. -/
theorem C4_bucketing_formula (colormap : Nat → List Nat) (queries_count : Nat)
    (buckets : List (List CounterEntry)) (out : List (Nat × QueryColoredCounters))
    (hok : colormap_reading colormap queries_count buckets = Except.ok out)
    (r : Nat × QueryColoredCounters) (hr : r ∈ out)
    (q : Nat × Nat) (hq : q ∈ r.2.queries) :
    r.1 = min (buckets.length - 1)
        (q.1 * buckets.length % 2 ^ 64 / rounded_queries_count queries_count) := by
  obtain ⟨bucket, _, outb, hpb, hrb⟩ := colormap_reading_mem colormap queries_count
    buckets out hok r hr
  obtain ⟨group, hgroup, lg, hpg, hrg⟩ := processBucket_mem colormap buckets.length
    queries_count bucket outb hpb r hrb
  obtain ⟨entries, hentries, hqs, hb⟩ := processGroup_mem colormap buckets.length
    queries_count group lg hpg r hrg
  rw [hqs] at hq
  have hne : entries ≠ [] := chunkBy_ne_nil_mem _ _ entries hentries
  cases entries with
  | nil => exact absurd rfl hne
  | cons e t =>
    have hpred := chunkBy_pred _ _ (e :: t) hentries
    have hkey : List.Chain' (fun a b : Nat × Nat =>
        get_query_bucket buckets.length queries_count a.1
          = get_query_bucket buckets.length queries_count b.1) (e :: t) :=
      hpred.imp fun a b hab => by
        simpa using hab
    have heq : get_query_bucket buckets.length queries_count q.1
        = get_query_bucket buckets.length queries_count e.1 :=
      chain'_key_eq (fun x : Nat × Nat =>
        get_query_bucket buckets.length queries_count x.1) t e hkey q hq
    rw [hb, ← heq]
    rfl

/-- Witness for C4 (scenario S4): `queries_count = 2000`, two buckets,
query `1500` lands in bucket `1`. -/
theorem C4_bucketing_formula_witness :
    (1 : Nat) = min (2 - 1)
        (1500 * 2 % 2 ^ 64 / rounded_queries_count 2000) :=
  C4_bucketing_formula (fun _ => [0]) 2000 [[(1500, 2, 9)], []]
    [(1, ⟨[(1500, 2)], [(0, 1)]⟩)] rfl
    (1, ⟨[(1500, 2)], [(0, 1)]⟩) (List.mem_singleton.mpr rfl)
    (1500, 2) (List.mem_singleton.mpr rfl)

/-! ### Reachability of the division-by-zero branch -/

theorem rounded_queries_count_eq_zero_iff (qc : Nat) (hqc : qc < 2 ^ 64) :
    rounded_queries_count qc = 0 ↔ qc = 0 := by
  have h64 : (2 : Nat) ^ 64 = 18446744073709551616 := by norm_num
  constructor
  · intro h
    rw [rounded_queries_count, h64] at h
    rw [h64] at hqc
    omega
  · intro h
    subst h
    rfl

theorem processGroup_isErr_iff (colormap : Nat → List Nat) (bc qc : Nat)
    (group : List CounterEntry) :
    isErr (processGroup colormap bc qc group) = true
      ↔ (group ≠ [] ∧ rounded_queries_count qc = 0) := by
  cases group with
  | nil => simp [processGroup, isErr]
  | cons e0 grest =>
    rw [processGroup]
    by_cases h0 : rounded_queries_count qc = 0
    · rw [if_pos h0]
      simp [isErr, h0]
    · rw [if_neg h0]
      simp [isErr, h0]

theorem processBucket_isErr_iff (colormap : Nat → List Nat) (bc qc : Nat)
    (bucket : List CounterEntry) :
    isErr (processBucket colormap bc qc bucket) = true
      ↔ (bucket ≠ [] ∧ rounded_queries_count qc = 0) := by
  have hmatch : isErr (processBucket colormap bc qc bucket)
      = isErr (mapE (processGroup colormap bc qc)
          (chunkBy (fun a b => a.2.2 == b.2.2) (sortByKey (fun e => e.2.2) bucket))) := by
    rw [processBucket]
    cases mapE (processGroup colormap bc qc)
        (chunkBy (fun a b => a.2.2 == b.2.2) (sortByKey (fun e => e.2.2) bucket)) with
    | error e => rfl
    | ok t => rfl
  rw [hmatch, mapE_isErr_iff]
  constructor
  · rintro ⟨g, hg, herr⟩
    obtain ⟨_, h0⟩ := (processGroup_isErr_iff colormap bc qc g).mp herr
    refine ⟨?_, h0⟩
    intro hnil
    rw [hnil] at hg
    simp [sortByKey, chunkBy] at hg
  · rintro ⟨hne, h0⟩
    have hsne : sortByKey (fun e : CounterEntry => e.2.2) bucket ≠ [] := by
      rw [Ne, sortByKey_eq_nil_iff]
      exact hne
    have hcne : chunkBy (fun a b : CounterEntry => a.2.2 == b.2.2)
        (sortByKey (fun e => e.2.2) bucket) ≠ [] := by
      rw [Ne, chunkBy_eq_nil_iff]
      exact hsne
    cases hchunk : chunkBy (fun a b : CounterEntry => a.2.2 == b.2.2)
        (sortByKey (fun e => e.2.2) bucket) with
    | nil => exact absurd hchunk hcne
    | cons g gs =>
      refine ⟨g, List.mem_cons_self _ _, ?_⟩
      rw [processGroup_isErr_iff]
      refine ⟨?_, h0⟩
      exact chunkBy_ne_nil_mem _ _ g (hchunk.symm ▸ List.mem_cons_self g gs)

/-- C10: the division-by-zero panic of `get_query_bucket` (embedded as the
error branch) is reachable exactly when `queries_count = 0` and some input
bucket decodes at least one counter entry — with `queries_count = 0` the
rounded batch size `R = ceil(0/1000)·1000 = 0` and `q · buckets_count / R`
divides by zero. -/
theorem C10_div_by_zero_iff (colormap : Nat → List Nat) (queries_count : Nat)
    (buckets : List (List CounterEntry)) (hqc : queries_count < 2 ^ 64) :
    isErr (colormap_reading colormap queries_count buckets) = true
      ↔ (queries_count = 0 ∧ ∃ b ∈ buckets, b ≠ []) := by
  have hmatch : isErr (colormap_reading colormap queries_count buckets)
      = isErr (mapE (processBucket colormap buckets.length queries_count) buckets) := by
    rw [colormap_reading]
    cases mapE (processBucket colormap buckets.length queries_count) buckets with
    | error e => rfl
    | ok t => rfl
  rw [hmatch, mapE_isErr_iff]
  constructor
  · rintro ⟨b, hb, herr⟩
    obtain ⟨hbne, h0⟩ := (processBucket_isErr_iff colormap buckets.length
      queries_count b).mp herr
    exact ⟨(rounded_queries_count_eq_zero_iff queries_count hqc).mp h0, b, hb, hbne⟩
  · rintro ⟨hq0, b, hb, hbne⟩
    refine ⟨b, hb, ?_⟩
    rw [processBucket_isErr_iff]
    exact ⟨hbne, (rounded_queries_count_eq_zero_iff queries_count hqc).mpr hq0⟩

/-- Witness for C10: `queries_count = 0` with a single nonempty input
bucket reaches the division-by-zero branch. -/
theorem C10_div_by_zero_iff_witness :
    isErr (colormap_reading (fun _ => []) 0 [[(1, 1, 1)]]) = true
      ↔ ((0 : Nat) = 0 ∧ ∃ b ∈ [[((1 : Nat), (1 : Nat), (1 : Nat))]], b ≠ []) :=
  C10_div_by_zero_iff (fun _ => []) 0 [[(1, 1, 1)]] (by norm_num)

/-! ### Codec round-trip lemmas -/

theorem encodeLEBGo_zero (fuel : Nat) : encodeLEBGo 0 fuel = [] := by
  cases fuel with
  | zero => rfl
  | succ fuel => rw [encodeLEBGo, if_pos rfl]

theorem decodeLEBRest_encodeGo (fuel : Nat) : ∀ v : Nat, v ≤ fuel → v ≠ 0 →
    ∀ tail : List Nat, decodeLEBRest (encodeLEBGo v fuel ++ tail) = some (v, tail) := by
  induction fuel with
  | zero => intro v hv hv0 tail; omega
  | succ fuel ih =>
    intro v hv hv0 tail
    rw [encodeLEBGo, if_neg hv0, List.cons_append, decodeLEBRest]
    by_cases h128 : 128 ≤ v
    · rw [if_pos h128, if_neg (by omega),
        ih (v / 128) (by omega) (by omega) tail]
      show some (v % 128 + 128 - 128 + v / 128 * 128, tail) = some (v, tail)
      rw [show v % 128 + 128 - 128 + v / 128 * 128 = v from by omega]
    · have h0 : v / 128 = 0 := by omega
      rw [if_neg h128, h0, encodeLEBGo_zero,
        List.nil_append, if_pos (by omega)]
      have hval : v % 128 + 0 = v := by omega
      rw [hval]

theorem decodeLEBRest_encode (v : Nat) (hv : v ≠ 0) (tail : List Nat) :
    decodeLEBRest (encodeLEBRest v ++ tail) = some (v, tail) :=
  decodeLEBRest_encodeGo v v (le_refl v) hv tail

theorem byte_fields (β f c low : Nat) (hβ : β ≤ 7) (hf : f < 2 ^ (7 - β))
    (hc : c ≤ 1) (hlow : low < 2 ^ β) :
    (f * 2 ^ (β + 1) + c * 2 ^ β + low) / 2 ^ (β + 1) = f
      ∧ (f * 2 ^ (β + 1) + c * 2 ^ β + low) / 2 ^ β % 2 = c
      ∧ (f * 2 ^ (β + 1) + c * 2 ^ β + low) % 2 ^ β = low := by
  interval_cases β <;> norm_num at hf hlow ⊢ <;> refine ⟨by omega, by omega, by omega⟩

theorem decode_encode_varint (fc v f : Nat) (hfc : fc ≤ 7) (hf : f < 2 ^ fc)
    (tail : List Nat) :
    decode_varint_flags fc (encode_varint_flags fc v f ++ tail)
      = some ((v, f), tail) := by
  have h87 : 8 - fc = (7 - fc) + 1 := by omega
  have h77 : 7 - (7 - fc) = fc := by omega
  have hf' : f < 2 ^ (7 - (7 - fc)) := by rw [h77]; exact hf
  have hlow : v % 2 ^ (7 - fc) < 2 ^ (7 - fc) :=
    Nat.mod_lt _ (Nat.pos_pow_of_pos _ (by omega))
  by_cases hv : v / 2 ^ (7 - fc) = 0
  · obtain ⟨hd1, hd2, hd3⟩ :=
      byte_fields (7 - fc) f 0 (v % 2 ^ (7 - fc)) (by omega) hf' (by omega) hlow
    rw [encode_varint_flags, if_neg (by omega), hv,
      show encodeLEBRest 0 = [] from rfl,
      List.cons_append, List.nil_append, decode_varint_flags]
    simp only [h87]
    rw [show f * 2 ^ (7 - fc + 1) + 0 + v % 2 ^ (7 - fc)
        = f * 2 ^ (7 - fc + 1) + 0 * 2 ^ (7 - fc) + v % 2 ^ (7 - fc) from by ring]
    rw [hd2, if_neg (by omega), hd1, hd3]
    have hvlt : v < 2 ^ (7 - fc) := by
      by_contra hlt
      have h1 : 1 ≤ v / 2 ^ (7 - fc) :=
        (Nat.one_le_div_iff (Nat.pos_pow_of_pos _ (by omega))).mpr (by omega)
      omega
    rw [Nat.mod_eq_of_lt hvlt]
  · obtain ⟨hd1, hd2, hd3⟩ :=
      byte_fields (7 - fc) f 1 (v % 2 ^ (7 - fc)) (by omega) hf' (by omega) hlow
    rw [encode_varint_flags, if_pos (by omega), List.cons_append,
      decode_varint_flags]
    simp only [h87]
    rw [show f * 2 ^ (7 - fc + 1) + 2 ^ (7 - fc) + v % 2 ^ (7 - fc)
        = f * 2 ^ (7 - fc + 1) + 1 * 2 ^ (7 - fc) + v % 2 ^ (7 - fc) from by ring]
    rw [hd2, if_pos rfl, decodeLEBRest_encode (v / 2 ^ (7 - fc)) hv tail, hd1, hd3]
    show some ((v % 2 ^ (7 - fc) + v / 2 ^ (7 - fc) * 2 ^ (7 - fc), f), tail)
        = some ((v, f), tail)
    rw [Nat.mod_add_div' v (2 ^ (7 - fc))]

theorem packBases_length (l : List Nat) :
    (packBases l).length = (l.length + 3) / 4 := by
  induction l using packBases.induct with
  | case1 => rfl
  | case2 b0 => simp [packBases]
  | case3 b0 b1 => simp [packBases]
  | case4 b0 b1 b2 => simp [packBases]
  | case5 b0 b1 b2 b3 rest ih =>
    rw [packBases, List.length_cons, ih]
    simp only [List.length_cons]
    omega

theorem unpack_pack (l : List Nat) : (∀ b ∈ l, b < 4) →
    unpackBases l.length (packBases l) = l := by
  induction l using packBases.induct with
  | case1 => intro _; rfl
  | case2 b0 =>
    intro hl
    have h0 : b0 < 4 := hl b0 (by simp)
    rw [show ([b0] : List Nat).length = 1 from rfl, packBases, unpackBases,
      if_pos (by omega)]
    simp only [unpackByte, List.cons.injEq, and_true]
    omega
  | case3 b0 b1 =>
    intro hl
    have h0 : b0 < 4 := hl b0 (by simp)
    have h1 : b1 < 4 := hl b1 (by simp)
    rw [show ([b0, b1] : List Nat).length = 2 from rfl, packBases, unpackBases,
      if_pos (by omega)]
    simp only [unpackByte, List.cons.injEq, and_true]
    refine ⟨by omega, by omega⟩
  | case4 b0 b1 b2 =>
    intro hl
    have h0 : b0 < 4 := hl b0 (by simp)
    have h1 : b1 < 4 := hl b1 (by simp)
    have h2 : b2 < 4 := hl b2 (by simp)
    rw [show ([b0, b1, b2] : List Nat).length = 3 from rfl, packBases, unpackBases,
      if_pos (by omega)]
    simp only [unpackByte, List.cons.injEq, and_true]
    refine ⟨by omega, by omega, by omega⟩
  | case5 b0 b1 b2 b3 rest ih =>
    intro hl
    have h0 : b0 < 4 := hl b0 (by simp)
    have h1 : b1 < 4 := hl b1 (by simp)
    have h2 : b2 < 4 := hl b2 (by simp)
    have h3 : b3 < 4 := hl b3 (by simp)
    have hrest : ∀ b ∈ rest, b < 4 := fun b hb => hl b (by simp [hb])
    have hbyte4 : unpackByte (b0 % 4 + b1 % 4 * 4 + b2 % 4 * 16 + b3 % 4 * 64) 4
        = [b0, b1, b2, b3] := by
      simp only [unpackByte, List.cons.injEq, and_true]
      refine ⟨by omega, by omega, by omega, by omega⟩
    by_cases hre : rest = []
    · subst hre
      rw [show ([b0, b1, b2, b3] : List Nat).length = 4 from rfl,
        show packBases [b0, b1, b2, b3]
          = [b0 % 4 + b1 % 4 * 4 + b2 % 4 * 16 + b3 % 4 * 64] from rfl,
        unpackBases, if_pos (by omega)]
      exact hbyte4
    · have hlen : (b0 :: b1 :: b2 :: b3 :: rest).length = rest.length + 4 := by
        simp only [List.length_cons]
      have hpos : 0 < rest.length := List.length_pos.mpr hre
      rw [hlen, packBases, unpackBases, if_neg (by omega),
        show rest.length + 4 - 4 = rest.length from by omega,
        ih hrest, hbyte4]
      rfl

theorem read_body_spec {ε : Type} (EC : ExtraCodec ε) (fc flags sb : Nat)
    (extra : ε) (bases tail : List Nat)
    (hfc : fc ≤ 7) (hflags : flags < 2 ^ fc)
    (hbases : ∀ b ∈ bases, b < 4) (hne : 1 ≤ bases.length)
    (hEC : ∀ (e : ε) (rest : List Nat), EC.decode (EC.encode e ++ rest) = some (e, rest)) :
    read_body EC fc sb
        (EC.encode extra
          ++ (encode_varint_flags fc bases.length flags ++ (packBases bases ++ tail)))
      = some ((flags, sb, extra, bases), tail) := by
  rw [read_body, hEC extra
    (encode_varint_flags fc bases.length flags ++ (packBases bases ++ tail))]
  show (match decode_varint_flags fc
      (encode_varint_flags fc bases.length flags ++ (packBases bases ++ tail)) with
    | none => none
    | some ((size, flags), s3) =>
      if size = 0 then none
      else
        if s3.length < (size + 3) / 4 then none
        else some ((flags, sb, extra,
          unpackBases size (s3.take ((size + 3) / 4))), s3.drop ((size + 3) / 4)))
    = some ((flags, sb, extra, bases), tail)
  rw [decode_encode_varint fc bases.length flags hfc hflags (packBases bases ++ tail)]
  show (if bases.length = 0 then none
    else
      if (packBases bases ++ tail).length < (bases.length + 3) / 4 then none
      else some ((flags, sb, extra,
        unpackBases bases.length ((packBases bases ++ tail).take ((bases.length + 3) / 4))),
        (packBases bases ++ tail).drop ((bases.length + 3) / 4)))
    = some ((flags, sb, extra, bases), tail)
  have hplen : (packBases bases).length = (bases.length + 3) / 4 :=
    packBases_length bases
  rw [if_neg (by omega), if_neg (by
    rw [List.length_append, hplen]
    omega)]
  rw [show (bases.length + 3) / 4 = (packBases bases).length from hplen.symm,
    List.take_left, List.drop_left, unpack_pack bases hbases]

/-! ### Claim theorems: codec round-trip -/

/-- C3 counterexample: the round-trip is NOT the identity on every tuple.
(a) With an empty base string (allowed by the claim, `|bases| ≤ 2^(32-F)`),
`write_to` emits `size = 0`, which `read_from` treats as the end-of-stream
terminator and returns no record.  (b) With `WITH_SECOND_BUCKET = false`
the second-bucket byte is not written, and `read_from` returns `0` in its
place, not the written value `42`. -/
theorem C3_codec_roundtrip_cex :
    read_from true unitExtraCodec 2 (write_to true unitExtraCodec 2 [] 3 42 ()) = none
      ∧ read_from false unitExtraCodec 2 (write_to false unitExtraCodec 2 [0, 1, 2] 3 42 ())
          = some ((3, 0, (), [0, 1, 2]), [])
      ∧ (0 : Nat) ≠ 42 := by
  refine ⟨rfl, rfl, by omega⟩

/-- C3 amended: for `FlagsCount ≤ 7`, `flags < 2^FlagsCount`,
`second_bucket < 256`, every extra payload whose codec round-trips, and
every NONEMPTY base string (`1 ≤ |bases| ≤ 2^(32-FlagsCount)`), decoding
the bytes of `write_to` with `read_from` returns the written tuple — except
that with `WITH_SECOND_BUCKET = false` the second bucket reads back as `0`
(it is not on the wire); with `WITH_SECOND_BUCKET = true` the identity is
exact.  An empty base string collides with the `size = 0` terminator and
decodes as no record. -/
theorem C3_codec_roundtrip {ε : Type} (wsb : Bool) (EC : ExtraCodec ε)
    (fc flags sb : Nat) (extra : ε) (bases tail : List Nat)
    (hfc : fc ≤ 7) (hflags : flags < 2 ^ fc) (hsb : sb < 256)
    (hbases : ∀ b ∈ bases, b < 4)
    (hne : 1 ≤ bases.length) (hbound : bases.length ≤ 2 ^ (32 - fc))
    (hEC : ∀ (e : ε) (rest : List Nat), EC.decode (EC.encode e ++ rest) = some (e, rest)) :
    read_from wsb EC fc (write_to wsb EC fc bases flags sb extra ++ tail)
      = some ((flags, if wsb then sb else 0, extra, bases), tail) := by
  cases wsb with
  | true =>
    rw [write_to]
    simp only [if_pos, List.append_assoc, List.cons_append, List.nil_append]
    show read_body EC fc sb
        (EC.encode extra
          ++ (encode_varint_flags fc bases.length flags ++ (packBases bases ++ tail)))
      = some ((flags, sb, extra, bases), tail)
    exact read_body_spec EC fc flags sb extra bases tail hfc hflags hbases hne hEC
  | false =>
    rw [write_to]
    simp only [List.append_assoc]
    rw [show ((if false = true then [sb] else []) : List Nat) = [] from rfl,
      List.nil_append]
    show read_body EC fc 0
        (EC.encode extra
          ++ (encode_varint_flags fc bases.length flags ++ (packBases bases ++ tail)))
      = some ((flags, 0, extra, bases), tail)
    exact read_body_spec EC fc flags 0 extra bases tail hfc hflags hbases hne hEC

/-- Witness for C3 (scenario S6): `FlagsCount = 2`,
`WITH_SECOND_BUCKET = true`, `flags = 0b11`, `bucket = 42`, no extra
payload, bases `"ACGTACGT"` as 2-bit codes. -/
theorem C3_codec_roundtrip_witness :
    read_from true unitExtraCodec 2
        (write_to true unitExtraCodec 2 [0, 1, 3, 2, 0, 1, 3, 2] 3 42 () ++ [])
      = some ((3, 42, (), [0, 1, 3, 2, 0, 1, 3, 2]), []) :=
  C3_codec_roundtrip true unitExtraCodec 2 3 42 () [0, 1, 3, 2, 0, 1, 3, 2] []
    (by omega) (by omega) (by omega) (by decide) (by decide) (by norm_num)
    (fun e rest => rfl)

end GGCat
